import Mathlib

set_option autoImplicit false

namespace EvalsPwa

/-!
Shallow embedding of the evals-pwa test execution engine.

Sources embedded here:
- the run orchestrator `runTests` and the helper `deepEquals`
  (state module, given as an unnamed source file);
- `createConsistencyAssertion` and `extractOutputAsString`
  from `src/lib/assertions/consistency.ts`;
- the `OpenAiResponses` streaming event loop and `mergeMessages`
  from `src/lib/providers/openai-responses.ts`.

JavaScript plain data (the configuration value domain) is modelled by
`PlainVal`.  JavaScript `null` is omitted from the scalar set: the claims
under study quantify over plain configuration values built from scalars,
sequences and maps, and the embedded comparisons never rely on the
`typeof null` quirks.  JavaScript objects cannot carry duplicate keys, so
association lists with `wfVal` (no duplicate keys in any map) represent
them; on that domain the reference-equality shortcut `a === b` of the
source is redundant and is dropped from the embedding.
-/

/-- Plain configuration values: scalars (boolean, number, string),
sequences (JS arrays) and maps (JS objects as ordered key/value lists). -/
inductive PlainVal where
  | boolV (b : Bool)
  | numV (n : Int)
  | strV (s : String)
  | seq (xs : List PlainVal)
  | map (kvs : List (String × PlainVal))

/-- JS `Object.keys` view of an array: decimal index strings paired with
the elements, starting at index `i`. -/
def seqEntries : Nat → List PlainVal → List (String × PlainVal)
  | _, [] => []
  | i, v :: vs => (Nat.repr i, v) :: seqEntries (i + 1) vs

/-- Key membership in an object entry list, as tested by
`keysB.includes(key)` followed by the property access `b[key]`. -/
def hasKey (k : String) (l : List (String × PlainVal)) : Bool :=
  (List.lookup k l).isSome

mutual

/-- Embedding of `deepEquals` (state module): strict equality on scalars,
`typeof` discrimination, and for objects a comparison of `Object.keys`
lengths followed by key membership plus recursive comparison per key.
Arrays and objects both have `typeof` equal to `"object"`, so an array is
compared against an object through its index-string keys. -/
def deepEquals : PlainVal → PlainVal → Bool
  | .boolV x, .boolV y => x == y
  | .numV x, .numV y => x == y
  | .strV x, .strV y => x == y
  | .seq xs, .seq ys =>
      xs.length == ys.length && seqEntriesEq 0 xs (seqEntries 0 ys)
  | .seq xs, .map kvs =>
      xs.length == kvs.length && seqEntriesEq 0 xs kvs
  | .map kvs, .seq ys =>
      kvs.length == ys.length && mapEntriesEq kvs (seqEntries 0 ys)
  | .map kvs, .map kvs' =>
      kvs.length == kvs'.length && mapEntriesEq kvs kvs'
  | _, _ => false

/-- Walk of the key loop of `deepEquals` when `a` is an array: for each
element at index `i`, require `Nat.repr i` to be a key of `eb` and the
values to compare equal. -/
def seqEntriesEq : Nat → List PlainVal → List (String × PlainVal) → Bool
  | _, [], _ => true
  | i, v :: vs, eb =>
      (match List.lookup (Nat.repr i) eb with
       | none => false
       | some w => deepEquals v w) && seqEntriesEq (i + 1) vs eb

/-- Walk of the key loop of `deepEquals` when `a` is an object: for each
entry `(k, v)`, require `k` to be a key of `eb` and the values to compare
equal. -/
def mapEntriesEq : List (String × PlainVal) → List (String × PlainVal) → Bool
  | [], _ => true
  | (k, v) :: rest, eb =>
      (match List.lookup k eb with
       | none => false
       | some w => deepEquals v w) && mapEntriesEq rest eb

end

/-- Test whether every key of `a` is also a key of `b`. -/
def keysSubset (a b : List (String × PlainVal)) : Bool :=
  a.all fun p => hasKey p.1 b

mutual

/-- Structural equality in the sense of the specification: both scalars
and equal, both sequences of equal length with structurally equal
elements in order, or both maps with equal key sets and structurally
equal values; different kinds are never equal. -/
def structurallyEqual : PlainVal → PlainVal → Bool
  | .boolV x, .boolV y => x == y
  | .numV x, .numV y => x == y
  | .strV x, .strV y => x == y
  | .seq xs, .seq ys => seqAllEq xs ys
  | .map kvs, .map kvs' =>
      keysSubset kvs kvs' && keysSubset kvs' kvs && mapValuesEq kvs kvs'
  | _, _ => false

/-- Pointwise structural equality of two sequences, requiring equal
lengths. -/
def seqAllEq : List PlainVal → List PlainVal → Bool
  | [], [] => true
  | x :: xs, y :: ys => structurallyEqual x y && seqAllEq xs ys
  | _, _ => false

/-- Structural equality of the values of `a` at every key, looked up in
`b`. -/
def mapValuesEq : List (String × PlainVal) → List (String × PlainVal) → Bool
  | [], _ => true
  | (k, v) :: rest, eb =>
      (match List.lookup k eb with
       | none => false
       | some w => structurallyEqual v w) && mapValuesEq rest eb

end

mutual

/-- Normalization identifying each sequence with the map from its decimal
index strings to its elements, as `Object.keys` presents an array. -/
def normJs : PlainVal → PlainVal
  | .boolV b => .boolV b
  | .numV n => .numV n
  | .strV s => .strV s
  | .seq xs => .map (normSeq 0 xs)
  | .map kvs => .map (normMap kvs)

/-- Normalize the elements of a sequence into index-keyed entries
starting at index `i`. -/
def normSeq : Nat → List PlainVal → List (String × PlainVal)
  | _, [] => []
  | i, v :: vs => (Nat.repr i, normJs v) :: normSeq (i + 1) vs

/-- Normalize the values of an entry list. -/
def normMap : List (String × PlainVal) → List (String × PlainVal)
  | [] => []
  | (k, v) :: rest => (k, normJs v) :: normMap rest

end

/-- Keys of an entry list are pairwise distinct (the JS-object
invariant). -/
def keysNodup : List (String × PlainVal) → Bool
  | [] => true
  | (k, _) :: rest => !hasKey k rest && keysNodup rest

mutual

/-- Well-formedness of a plain value: every map appearing in it has
pairwise distinct keys, as JS objects do. -/
def wfVal : PlainVal → Bool
  | .boolV _ => true
  | .numV _ => true
  | .strV _ => true
  | .seq xs => wfList xs
  | .map kvs => keysNodup kvs && wfEntries kvs

/-- Well-formedness of every element of a list of values. -/
def wfList : List PlainVal → Bool
  | [] => true
  | v :: vs => wfVal v && wfList vs

/-- Well-formedness of every value of an entry list. -/
def wfEntries : List (String × PlainVal) → Bool
  | [] => true
  | (_, v) :: rest => wfVal v && wfEntries rest

end

/-! ### Test cases and the defaultTest merge (runTests, state module) -/

/-- Variable bindings of a test: a JS object, ordered key/value list. -/
abbrev Varmap := List (String × PlainVal)

/-- Effect of spreading one property onto an object literal under
construction: an existing key is overwritten in place, a new key is
appended, as the JS object spread does. -/
def spreadOne (acc : Varmap) (kv : String × PlainVal) : Varmap :=
  if acc.any fun p => p.1 == kv.1 then
    acc.map fun p => if p.1 == kv.1 then (p.1, kv.2) else p
  else acc ++ [kv]

/-- JS object spread of two objects, second spread after the first:
the second object wins on key collisions. -/
def spreadMerge (a b : Varmap) : Varmap :=
  b.foldl spreadOne a

/-- Declarative assertion specification: a type tag plus arguments. -/
structure AssertionSpec where
  type : String
  vars : Option PlainVal := none

/-- A test case from the configuration; absent YAML keys are `none`. -/
structure TestCase where
  description : Option String := none
  vars : Option Varmap := none
  assert : Option (List AssertionSpec) := none

instance : Inhabited TestCase := ⟨{}⟩

/-- One test merged with the defaultTest, as built by the object literal
in `runTests`: fields of the test override the defaults, `vars` is the
spread merge of both `vars` objects, `assert` the concatenation of both
`assert` lists. -/
def applyDefaultTest (d t : TestCase) : TestCase :=
  { description := t.description.orElse fun _ => d.description
    vars := some (spreadMerge (d.vars.getD []) (t.vars.getD []))
    assert := some ((d.assert.getD []) ++ (t.assert.getD [])) }

/-- Embedding of the defaultTest block of `runTests`: when the config has
a `defaultTest`, every test is merged with it; otherwise the test list is
used as loaded. -/
def mergeDefaultTest : Option TestCase → List TestCase → List TestCase
  | none, tests => tests
  | some d, tests => tests.map (applyDefaultTest d)

/-! ### Cells, environments and the Run record (runTests, state module) -/

/-- Result of one assertion evaluation. -/
structure AssertionResult where
  pass : Bool
  message : Option String := none
  deriving Repr, DecidableEq

/-- One part of a model output: a text fragment or a binary blob. -/
inductive OutputPart where
  | text (s : String)
  | blob
  deriving Repr, DecidableEq

/-- An output value of a test environment run: a plain string or a list
of parts. -/
inductive CellOutput where
  | str (s : String)
  | parts (ps : List OutputPart)
  deriving Repr, DecidableEq

/-- Token usage of one provider call. -/
structure TokenUsage where
  inputTokens : Option Nat := none
  outputTokens : Option Nat := none
  totalTokens : Option Nat := none
  deriving Repr, DecidableEq

/-- Structured output of one environment run, the value the enqueued unit
copies onto the shared result cell; absent fields are `none`. -/
structure TestOutput where
  error : Option String := none
  output : Option CellOutput := none
  latencyMillis : Option Nat := none
  tokenUsage : Option TokenUsage := none
  deriving Repr, DecidableEq

/-- One cell of the results matrix. -/
structure TestResult where
  pass : Bool
  error : Option String := none
  output : Option CellOutput := none
  latencyMillis : Option Nat := none
  tokenUsage : Option TokenUsage := none
  assertionResults : List AssertionResult := []
  deriving Repr, DecidableEq

/-- A constructed per-cell assertion: evaluates the output field that the
enqueued unit passes to `assertion.run`. -/
def CellAssertion : Type := Option CellOutput → AssertionResult

/-- The fresh cell pushed before enqueueing the unit of work. -/
def initialCell : TestResult := { pass := false, assertionResults := [] }

/-- Copy of all output fields onto the shared cell, as the
`Object.entries` loop of the enqueued unit does: a field present on the
output overwrites the cell field, an absent field leaves it unchanged. -/
def copyOutputFields (r : TestResult) (o : TestOutput) : TestResult :=
  { r with
    error := o.error.orElse fun _ => r.error
    output := o.output.orElse fun _ => r.output
    latencyMillis := o.latencyMillis.orElse fun _ => r.latencyMillis
    tokenUsage := o.tokenUsage.orElse fun _ => r.tokenUsage }

/-- JS falsiness of an optional string field: absent, or present but the
empty string.  This is the truthiness applied by `if (output.error)` in
the enqueued unit of `runTests` and by the `!r.output`, `!output` and
`!rubricOutput` checks of `consistency.ts`. -/
def jsFalsyOptStr : Option String → Bool
  | none => true
  | some s => s == ""

/-- Embedding of the enqueued unit of work of `runTests` acting on one
cell: run the environment, copy the output fields, and then test
`if (output.error)` under JS truthiness — only a present, non-empty
error short-circuits with `pass := false`; otherwise (the error absent
or the falsy empty string) all per-cell assertions are evaluated,
recorded, and `pass` set to their conjunction. -/
def runCell (output : TestOutput) (assertions : List CellAssertion) : TestResult :=
  let r := copyOutputFields initialCell output
  if jsFalsyOptStr output.error then
    let ars := assertions.map fun a => a output.output
    { r with pass := ars.all (·.pass), assertionResults := ars }
  else { r with pass := false }

/-- A prompt template. -/
abbrev Prompt := String

/-- A provider entry of the configuration: a plain id string or a record
with an id and optional provider-specific prompts. -/
inductive Provider where
  | str (id : String)
  | obj (id : String) (prompts : Option (List Prompt))
  deriving Repr, DecidableEq

/-- The id used to resolve the concrete model provider. -/
def Provider.id : Provider → String
  | .str i => i
  | .obj i _ => i

/-- The provider-specific prompt list, when the entry is a record that
carries one. -/
def Provider.promptList : Provider → Option (List Prompt)
  | .str _ => none
  | .obj _ ps => ps

/-- Prompt selection of `runTests`: provider-specific prompts when
present, otherwise the global prompts. -/
def promptsFor (globalPrompts : List Prompt) (p : Provider) : List Prompt :=
  match p.promptList with
  | some ps => ps
  | none => globalPrompts

/-- A test environment built by `runTests`: one (model, prompt) pair. -/
structure TestEnvironment where
  modelId : String
  prompt : Prompt
  deriving Repr, DecidableEq

/-- One (provider, prompt) environment pair recorded on the Run. -/
structure RunEnv where
  provider : Provider
  prompt : Prompt
  deriving Repr, DecidableEq

/-- The `envs` list of `runTests`: for each provider, one environment per
selected prompt. -/
def buildEnvs (providers : List Provider) (globalPrompts : List Prompt) :
    List TestEnvironment :=
  providers.flatMap fun p =>
    (promptsFor globalPrompts p).map fun pr => ⟨p.id, pr⟩

/-- The `runEnvs` list of `runTests`, pushed in lockstep with `envs`. -/
def buildRunEnvs (providers : List Provider) (globalPrompts : List Prompt) :
    List RunEnv :=
  providers.flatMap fun p =>
    (promptsFor globalPrompts p).map fun pr => ⟨p, pr⟩

/-- The loaded configuration, as far as `runTests` consumes it. -/
structure Config where
  description : Option String := none
  providers : Option (List Provider) := none
  prompts : Option (List Prompt) := none
  tests : Option (List TestCase) := none
  defaultTest : Option TestCase := none

/-- The Run record assembled by `runTests`. -/
structure Run where
  version : Nat
  id : String
  timestamp : Nat
  description : Option String
  envs : List RunEnv
  tests : List TestCase
  results : List (List TestResult)

/-- Constructor of per-cell assertions, standing for
`mgr.getAssertion (a, test.vars ?? {})`; the AssertionManager itself is
an external collaborator. -/
def GetAssertion : Type := AssertionSpec → Varmap → CellAssertion

/-- The per-cell assertion list of one test, as built inside the cell
loop of `runTests`. -/
def cellAssertions (getA : GetAssertion) (t : TestCase) : List CellAssertion :=
  (t.assert.getD []).map fun a => getA a (t.vars.getD [])

/-- The results matrix after the queue has drained: one row per test, one
settled cell per environment.  The environment outcome of cell
`(ti, ei)` is supplied by `outcome`, since providers are external. -/
def runResults (getA : GetAssertion) (outcome : Nat → Nat → TestOutput)
    (tests : List TestCase) (envCount : Nat) : List (List TestResult) :=
  tests.enum.map fun (ti, test) =>
    (List.range envCount).map fun ei =>
      runCell (outcome ti ei) (cellAssertions getA test)

/-- The completed Run record assembled by `runTests` from a loaded
config: merged tests, environments from providers and prompts, and the
filled results matrix. -/
def runTestsRun (config : Config) (runId : String) (now : Nat)
    (getA : GetAssertion) (outcome : Nat → Nat → TestOutput) : Run :=
  let globalPrompts := config.prompts.getD []
  let globalProviders := config.providers.getD []
  let globalTests := mergeDefaultTest config.defaultTest (config.tests.getD [])
  let envs := buildEnvs globalProviders globalPrompts
  { version := 1
    id := runId
    timestamp := now
    description := config.description
    envs := buildRunEnvs globalProviders globalPrompts
    tests := globalTests
    results := runResults getA outcome globalTests envs.length }

/-- Observable actions of `runTests` recorded for the error-handling
claims: provider resolution and enqueueing a cell. -/
inductive RunAction where
  | getProvider (id : String)
  | enqueueCell (testIdx envIdx : Nat)
  deriving Repr, DecidableEq

/-- Trace of provider resolutions and enqueues performed by `runTests`
once the config and storage checks have passed: one `getProvider` per
provider entry, then one enqueue per (test, environment) cell. -/
def runTestsTrace (config : Config) : List RunAction :=
  let globalProviders := config.providers.getD []
  let globalTests := mergeDefaultTest config.defaultTest (config.tests.getD [])
  let envs := buildEnvs globalProviders (config.prompts.getD [])
  (globalProviders.map fun p => RunAction.getProvider p.id)
    ++ (globalTests.enum.flatMap fun (ti, _) =>
          (List.range envs.length).map fun ei => RunAction.enqueueCell ti ei)

/-- Embedding of the guarded entry of `runTests`: with no loaded config
or no storage it throws at once, performing no action; otherwise it
performs its trace and produces the Run.  The storage object itself is
opaque to the orchestrator logic modelled here. -/
def runTests {σ : Type} (config? : Option Config) (storage? : Option σ)
    (runId : String) (now : Nat) (getA : GetAssertion)
    (outcome : Nat → Nat → TestOutput) : List RunAction × Except String Run :=
  match config? with
  | none => ([], .error "Cannot call runTests without a config")
  | some config =>
    match storage? with
    | none => ([], .error "Cannot call runTests without a storage")
    | some _ =>
        (runTestsTrace config, .ok (runTestsRun config runId now getA outcome))

/-! ### Row-assertion phase of the orchestrator (modelled from the spec) -/

/-- Events of one orchestrated run, in execution order. -/
inductive RunEvent where
  | cellSettled (testIdx envIdx : Nat)
  | rowAssertInvoked (testIdx : Nat) (row : List TestResult)
  | runFinalized
  deriving Repr, DecidableEq

/-- Modelled from the spec: the row-assertion phase of the run
orchestrator is not among the given sources (the `runTests` excerpt
predates row assertions, while `consistency.ts` declares the row
variant that the orchestrator invokes).  Per the spec, the queue's
completion barrier settles every cell first; then, before the Run is
considered final, the row assertions of each test are invoked once with
that test's full result vector.  The trace lists the settlement of every
cell, then one row-assertion invocation per test carrying its full row,
then the finalization of the Run. -/
def orchestrateEvents (getA : GetAssertion) (outcome : Nat → Nat → TestOutput)
    (tests : List TestCase) (envCount : Nat) : List RunEvent :=
  let results := runResults getA outcome tests envCount
  ((List.range tests.length).flatMap fun ti =>
      (List.range envCount).map fun ei => RunEvent.cellSettled ti ei)
    ++ ((List.range tests.length).map fun ti =>
          RunEvent.rowAssertInvoked ti (results.getD ti []))
    ++ [RunEvent.runFinalized]

/-! ### Consistency row assertion (src/lib/assertions/consistency.ts) -/

/-- The mapping applied to each entry of the result vector before the
rubric call: a falsy output (absent, or the empty string) contributes an
empty list, a plain string is wrapped into a one-element list, and an
array of parts passes through unchanged. -/
def mapCellOutput : Option CellOutput → List OutputPart
  | none => []
  | some (.str s) => if s == "" then [] else [.text s]
  | some (.parts ps) => ps

/-- The `output` vector handed to the rubric environment by the
consistency assertion: `results.map` of `mapCellOutput`. -/
def consistencyMapOutputs (results : List TestResult) : List (List OutputPart) :=
  results.map fun r => mapCellOutput r.output

/-- Embedding of `extractOutputAsString`: a falsy output (absent or the
empty string) yields nothing; a string yields itself; an array yields the
space-join of its string parts, or nothing when it has no string part. -/
def extractOutputAsString : Option CellOutput → Option String
  | none => none
  | some (.str s) => if s == "" then none else some s
  | some (.parts ps) =>
      let strings := ps.filterMap fun p =>
        match p with
        | .text s => some s
        | .blob => none
      if strings.isEmpty then none else some (String.intercalate " " strings)

/-- Modelled from the spec: `assertionResultSchema` lives in the types
module, which is not among the given sources.  Per the data model, an
Assertion Result is a `pass` boolean plus an optional human-readable
`message`; validation of the first extracted JSON object fails on
anything else.  The argument is `objs[0]?`, absent when nothing was
extracted. -/
def assertionResultParse : Option PlainVal → Option AssertionResult
  | some (.map kvs) =>
      (match List.lookup "pass" kvs with
       | some (.boolV b) =>
           match List.lookup "message" kvs with
           | none => some { pass := b, message := none }
           | some (.strV m) => some { pass := b, message := some m }
           | some _ => none
       | _ => none)
  | _ => none

/-- Embedding of the `run` closure of the consistency row assertion.
The rubric environment run (SimpleEnvironment, an external collaborator
composed with the criteria and test vars fixed at construction) is the
function `rubricEval` from the mapped output vector to its final
structured value, and the external `extractAllJsonObjects` helper is the
function `extractAll`.  On a falsy rubric output every position fails
with a diagnostic; otherwise the first extracted object is validated and,
when validation fails, every position fails with a diagnostic. -/
def consistencyRun (extractAll : String → List PlainVal)
    (rubricEval : List (List OutputPart) → TestOutput)
    (results : List TestResult) : List AssertionResult :=
  let output := consistencyMapOutputs results
  let result := rubricEval output
  let rubricOutput := extractOutputAsString result.output
  if jsFalsyOptStr rubricOutput then
    List.replicate results.length
      { pass := false
        message := some ("Rubric did not succeed: " ++ result.error.getD "No error message") }
  else
    let s := rubricOutput.getD ""
    let objs := extractAll s
    match assertionResultParse objs.head? with
    | some validated => List.replicate results.length validated
    | none =>
        List.replicate results.length
          { pass := false
            message := some ("Invalid rubric output: \"" ++ s ++ "\"") }

/-- Parsed arguments of the consistency assertion. -/
structure ConsistencyArgs where
  criteria : String
  prompt : Option String := none
  provider : Option String := none

/-- Modelled from the spec: the zod `argsSchema` references
`providerSchema` from the types module, which is not among the given
sources.  Per the external-interface section, a provider reference is an
id string or a record carrying an `id`; the arguments require a string
`criteria` and optionally a string `prompt` and a provider reference. -/
def parseConsistencyArgs (args : PlainVal) : Option ConsistencyArgs :=
  match args with
  | .map kvs =>
      (match List.lookup "criteria" kvs with
       | some (.strV c) =>
           (match List.lookup "prompt" kvs with
            | none => some none
            | some (.strV p) => some (some p)
            | some _ => none).bind fun p? =>
           (match List.lookup "provider" kvs with
            | none => some none
            | some (.strV pid) => some (some pid)
            | some (.map pkvs) =>
                (match List.lookup "id" pkvs with
                 | some (.strV pid) => some (some pid)
                 | _ => none)
            | some _ => none).bind fun prov? =>
           some { criteria := c, prompt := p?, provider := prov? }
       | _ => none)
  | _ => none

/-- Modelled from the spec: the default rubric provider id exported by
the prompts module, which is not among the given sources; the claims
settled here do not depend on its value. -/
def defaultLlmAssertionProviderId : String := "llm-assertion-default"

/-- Observable actions of the consistency assertion constructor. -/
inductive ConsistencyAction where
  | getProvider (id : String)
  | rubricModelRun
  deriving Repr, DecidableEq

/-- The provider id the constructor resolves: the provider argument when
given, the default rubric provider otherwise. -/
def consistencyProviderId (a : ConsistencyArgs) : String :=
  a.provider.getD defaultLlmAssertionProviderId

/-- Embedding of `createConsistencyAssertion` up to its returned value:
arguments failing schema validation throw at once, before any provider
resolution and before any rubric-model call; valid arguments resolve the
rubric provider and return the assertion. -/
def createConsistencyAssertion (args : PlainVal) :
    List ConsistencyAction × Except String ConsistencyArgs :=
  match parseConsistencyArgs args with
  | none => ([], .error "Invalid LLM Rubric arguments")
  | some a => ([.getProvider (consistencyProviderId a)], .ok a)

/-! ### OpenAI responses provider (src/lib/providers/openai-responses.ts) -/

/-- Usage block of a completed response. -/
structure ResponseUsage where
  inputTokens : Option Nat := none
  outputTokens : Option Nat := none
  totalTokens : Option Nat := none
  deriving Repr, DecidableEq

/-- Structured payload of a `response.completed` event, as far as the
embedded claims inspect it. -/
structure ResponsePayload where
  id : String
  outputText : Option String := none
  usage : Option ResponseUsage := none
  deriving Repr, DecidableEq

/-- Roles of a responses-API message. -/
inductive Role where
  | user
  | assistant
  | system
  | developer
  deriving Repr, DecidableEq

/-- Content of a responses-API input item. -/
inductive RespContent where
  | inputText (text : String)
  | inputImage (imageUrl : Option String)
  deriving Repr, DecidableEq

/-- Message content: a plain string or a list of content parts. -/
inductive MsgContent where
  | str (s : String)
  | parts (ps : List RespContent)
  deriving Repr, DecidableEq

/-- A responses-API message. -/
structure ResponseMessage where
  role : Role
  content : MsgContent
  deriving Repr, DecidableEq

/-- Embedding of `mergeMessages`: the stored session messages followed by
the new messages with every system-role turn filtered out. -/
def mergeMessages (a b : List ResponseMessage) : List ResponseMessage :=
  a ++ b.filter fun m => m.role != Role.system

/-- Recognized streaming events, already JSON-decoded; event kinds not in
the switch are `otherEvent` and are ignored. -/
inductive RespEvent where
  | outputTextDelta (delta : Option String)
  | refusalDelta (delta : Option String)
  | completed (response : ResponsePayload)
  | errorEvent (message : String)
  | failedEvent (message : Option String) (reason : Option String)
  | otherEvent
  deriving Repr, DecidableEq

/-- Embedding of the event loop of `OpenAiResponses.run`: deltas extend
the accumulated full text, a completed event stores its payload as the
final response, error and failed events throw, other events are skipped;
when the stream ends without a stored completion the run throws. -/
def processEvents : List RespEvent → String → Option ResponsePayload →
    Except String (String × ResponsePayload)
  | [], _, none => .error "Failed to run model: missing completion"
  | [], fullText, some r => .ok (fullText, r)
  | ev :: evs, fullText, final? =>
      match ev with
      | .outputTextDelta d => processEvents evs (fullText ++ d.getD "") final?
      | .refusalDelta d => processEvents evs (fullText ++ d.getD "") final?
      | .completed r => processEvents evs fullText (some r)
      | .errorEvent m => .error ("Failed to run model: " ++ m)
      | .failedEvent m reason =>
          .error ("Failed to run model: " ++ m.getD (reason.getD "Unknown error"))
      | .otherEvent => processEvents evs fullText final?

/-- Value returned by a successful `runModel` generator: the parsed final
response and the continuation state extended with the assistant turn. -/
structure StreamSuccess where
  response : ResponsePayload
  sessionState : List ResponseMessage
  deriving Repr, DecidableEq

/-- Embedding of the tail of `runModel`: consume the stream, then build
the returned structured value from the final completed payload, with the
assistant message preferring the payload's output text over the
accumulated deltas. -/
def runModelResult (messages : List ResponseMessage) (evs : List RespEvent) :
    Except String StreamSuccess :=
  match processEvents evs "" none with
  | .error e => .error e
  | .ok (fullText, parsed) =>
      .ok { response := parsed
            sessionState :=
              messages ++ [{ role := .assistant, content := .str (parsed.outputText.getD fullText) }] }

/-- Whether a stream event is a `response.completed` event. -/
def RespEvent.isCompleted : RespEvent → Bool
  | .completed _ => true
  | _ => false

/-- Whether a stream event is a `response.error` or `response.failed`
event. -/
def RespEvent.isFailure : RespEvent → Bool
  | .errorEvent _ => true
  | .failedEvent _ _ => true
  | _ => false

/-- Whether an orchestration event is a row-assertion invocation for the
test at index `ti`. -/
def RunEvent.isRowInvokeFor (ti : Nat) : RunEvent → Bool
  | .rowAssertInvoked t _ => t == ti
  | _ => false

/-- Concrete configuration used by witnesses: one provider, two global
prompts, two tests. -/
def sampleConfig : Config :=
  { providers := some [.str "openai:gpt-4o"]
    prompts := some ["Say hi to {{name}}", "Say bye to {{name}}"]
    tests := some [{ description := some "t0" }, { description := some "t1" }] }

/-- Concrete assertion constructor used by witnesses. -/
def sampleGetAssertion : GetAssertion := fun _ _ _ => { pass := true }

/-- Concrete environment outcome used by witnesses. -/
def sampleOutcome : Nat → Nat → TestOutput := fun _ _ => { output := some (.str "ok") }

/-! ## Theorems -/

/-- C1 counterexample: an environment outcome that records the empty
string as its error is falsy under `if (output.error)`, so the cell
keeps the recorded error, still evaluates its per-cell assertions, and
can pass: with no assertions the pass field is true although the error
field is present, and an added failing assertion changes the cell,
falsifying both parts of the original claim. -/
theorem cell_pass_counterexample :
    (runCell { error := some "" } []).pass = true ∧
      (runCell { error := some "" } []).error = some "" ∧
      (runCell { error := some "" } [fun _ => { pass := false }]).pass = false := by
  exact ⟨rfl, rfl, rfl⟩

/-- C1 amended: the pass field of a settled cell is true exactly when
the environment run produced no truthy error (no error, or the falsy
empty string) and every recorded per-cell assertion result passes
(vacuously so without assertions); on a truthy, non-empty error the
cell fails and the assertions are not evaluated, so the cell is the
same as if there were none. -/
theorem cell_pass_iff (output : TestOutput) (assertions : List CellAssertion) :
    ((runCell output assertions).pass = true ↔
      jsFalsyOptStr output.error = true ∧
        ∀ r ∈ (runCell output assertions).assertionResults, r.pass = true) ∧
    (jsFalsyOptStr output.error = false →
      (runCell output assertions).pass = false ∧
        runCell output assertions = runCell output []) := by
  cases hf : jsFalsyOptStr output.error with
  | true =>
      have h1 : runCell output assertions =
          { copyOutputFields initialCell output with
            pass := (assertions.map fun a => a output.output).all (·.pass)
            assertionResults := assertions.map fun a => a output.output } := by
        unfold runCell
        rw [if_pos hf]
      refine ⟨?_, by intro h; cases h⟩
      rw [h1]
      simp [List.all_eq_true]
  | false =>
      have h1 : runCell output assertions =
          { copyOutputFields initialCell output with pass := false } := by
        unfold runCell
        rw [if_neg (by simp [hf])]
      have h2 : runCell output [] =
          { copyOutputFields initialCell output with pass := false } := by
        unfold runCell
        rw [if_neg (by simp [hf])]
      refine ⟨?_, fun _ => ⟨by rw [h1], by rw [h1, h2]⟩⟩
      rw [h1]
      simp [hf]

/-- Witness for C1 amended at a concrete truthy-error output. -/
theorem cell_pass_iff_witness :
    (runCell { error := some "boom" } [fun _ => { pass := true }]).pass = false ∧
      runCell { error := some "boom" } [fun _ => { pass := true }] =
        runCell { error := some "boom" } [] :=
  (cell_pass_iff { error := some "boom" } [fun _ => { pass := true }]).2 (by decide)

/-- The two environment lists of `runTests` are pushed in lockstep and
have the same length. -/
theorem buildRunEnvs_length (ps : List Provider) (g : List Prompt) :
    (buildRunEnvs ps g).length = (buildEnvs ps g).length := by
  induction ps with
  | nil => rfl
  | cons p ps ih => simp only [buildRunEnvs, buildEnvs, List.flatMap_cons,
      List.length_append, List.length_map] at *; omega

/-- C2: the completed Run has one results row per test and one cell per
environment pair in every row. -/
theorem run_matrix_shape (config : Config) (runId : String) (now : Nat)
    (getA : GetAssertion) (outcome : Nat → Nat → TestOutput) :
    (runTestsRun config runId now getA outcome).results.length =
        (runTestsRun config runId now getA outcome).tests.length ∧
      ∀ row ∈ (runTestsRun config runId now getA outcome).results,
        row.length = (runTestsRun config runId now getA outcome).envs.length := by
  constructor
  · simp [runTestsRun, runResults]
  · intro row hrow
    simp only [runTestsRun] at hrow ⊢
    simp only [runResults, List.mem_map] at hrow
    obtain ⟨⟨ti, test⟩, hmem, hrw⟩ := hrow
    rw [← hrw]
    simp [buildRunEnvs_length]

/-- C10: merging a continued session with a new conversation keeps the
stored messages and appends exactly the non-system messages of the new
conversation, in order; no system turn of the new conversation survives. -/
theorem mergeMessages_spec (a b : List ResponseMessage) :
    (mergeMessages a b).take a.length = a ∧
      (mergeMessages a b).drop a.length =
        b.filter (fun m => m.role != Role.system) ∧
      ((mergeMessages a b).drop a.length).all
        (fun m => m.role != Role.system) = true := by
  refine ⟨List.take_left a _, List.drop_left a _, ?_⟩
  rw [show (mergeMessages a b).drop a.length
        = b.filter (fun m => m.role != Role.system) from List.drop_left a _]
  rw [List.all_eq_true]
  intro m hm
  exact (List.mem_filter.mp hm).2

/-- Lookup after the overwrite pass of `spreadOne`: the overwritten key
reads back the new value provided it was present, other keys are
untouched. -/
theorem lookup_map_set (acc : Varmap) (kk : String) (v2 : PlainVal) (k : String) :
    List.lookup k (acc.map fun p => if p.1 == kk then (p.1, v2) else p) =
      if k = kk then (List.lookup k acc).map fun _ => v2
      else List.lookup k acc := by
  induction acc with
  | nil => by_cases h : k = kk <;> simp [h]
  | cons p rest ih =>
      obtain ⟨pk, pv⟩ := p
      simp only [List.map_cons]
      by_cases h1 : pk = kk
      · subst h1
        by_cases h2 : k = pk
        · subst h2
          simp [List.lookup_cons]
        · have hq : (k == pk) = false := by simpa using h2
          simp only [beq_self_eq_true, if_true, List.lookup_cons, hq, if_neg h2] at ih ⊢
          exact ih
      · have h1b : (pk == kk) = false := by simpa using h1
        by_cases h2 : k = pk
        · subst h2
          have h3 : ¬k = kk := h1
          simp [List.lookup_cons, h1b, h3]
        · have hq : (k == pk) = false := by simpa using h2
          simp only [h1b, Bool.false_eq_true, if_false, List.lookup_cons, hq] at ih ⊢
          exact ih

/-- Lookup through `spreadOne`: the spread key reads back the spread
value, any other key is unchanged. -/
theorem lookup_spreadOne (acc : Varmap) (kk : String) (v2 : PlainVal) (k : String) :
    List.lookup k (spreadOne acc (kk, v2)) =
      if k = kk then some v2 else List.lookup k acc := by
  cases hany : (acc.any fun p => p.1 == kk) with
  | true =>
      have hsome : (List.lookup kk acc).isSome := by
        rw [List.lookup_isSome_iff]
        obtain ⟨p, hp, hpk⟩ := List.any_eq_true.mp hany
        have hpkk : p.1 = kk := by simpa using hpk
        exact ⟨p, hp, by simp [hpkk]⟩
      have hrw : spreadOne acc (kk, v2)
          = acc.map fun p => if p.1 == kk then (p.1, v2) else p := by
        simp only [spreadOne, hany, if_true]
      rw [hrw, lookup_map_set]
      by_cases h : k = kk
      · subst h
        obtain ⟨w, hw⟩ := Option.isSome_iff_exists.mp hsome
        simp [hw]
      · simp [h]
  | false =>
      have hrw : spreadOne acc (kk, v2) = acc ++ [(kk, v2)] := by
        simp only [spreadOne, hany, Bool.false_eq_true, if_false]
      rw [hrw, List.lookup_append]
      by_cases h : k = kk
      · subst h
        have hnone : List.lookup k acc = none := by
          rw [List.lookup_eq_none_iff]
          intro p hp
          have hflat := List.any_eq_false.mp hany p hp
          have hne : ¬p.1 = k := by simpa using hflat
          exact bne_iff_ne.mpr (Ne.symm hne)
        rw [hnone]
        simp [List.lookup_cons]
      · have hq : (k == kk) = false := by simpa using h
        simp only [List.lookup_cons, hq, List.lookup_nil, Option.or_none, if_neg h]

/-- Keys absent by `hasKey` look up to nothing. -/
theorem lookup_eq_none_of_not_hasKey (l : Varmap) (k : String)
    (h : hasKey k l = false) : List.lookup k l = none := by
  unfold hasKey at h
  cases hl : List.lookup k l with
  | none => rfl
  | some v => rw [hl] at h; simp at h

/-- Lookup through the JS object spread of two objects: the second
object's binding wins when present, otherwise the first object's binding
is used.  The second object is required to have distinct keys, as JS
objects do. -/
theorem lookup_spreadMerge (a b : Varmap) (hb : keysNodup b = true) (k : String) :
    List.lookup k (spreadMerge a b) =
      (List.lookup k b).or (List.lookup k a) := by
  induction b generalizing a with
  | nil => simp [spreadMerge]
  | cons p rest ih =>
      obtain ⟨pk, pv⟩ := p
      rw [keysNodup, Bool.and_eq_true_iff] at hb
      obtain ⟨hn, hrest⟩ := hb
      have hnk : hasKey pk rest = false := by simpa using hn
      have hfold : spreadMerge a ((pk, pv) :: rest)
          = spreadMerge (spreadOne a (pk, pv)) rest := rfl
      rw [hfold, ih _ hrest, lookup_spreadOne]
      by_cases h : k = pk
      · subst h
        rw [lookup_eq_none_of_not_hasKey rest k hnk]
        simp [List.lookup_cons]
      · have hq : (k == pk) = false := by simpa using h
        simp [List.lookup_cons, hq, h]

/-- Witness for C2 at the sample configuration: two tests and two
environments give a 2 by 2 matrix. -/
theorem run_matrix_shape_witness :
    (runTestsRun sampleConfig "run-1" 7 sampleGetAssertion sampleOutcome).results.length =
        (runTestsRun sampleConfig "run-1" 7 sampleGetAssertion sampleOutcome).tests.length ∧
      ((runTestsRun sampleConfig "run-1" 7 sampleGetAssertion sampleOutcome).results.getD 0 []).length =
        (runTestsRun sampleConfig "run-1" 7 sampleGetAssertion sampleOutcome).envs.length :=
  ⟨(run_matrix_shape sampleConfig "run-1" 7 sampleGetAssertion sampleOutcome).1,
   (run_matrix_shape sampleConfig "run-1" 7 sampleGetAssertion sampleOutcome).2 _ (by decide)⟩

/-- C6: with a defaultTest configured, every test is merged positionally:
the merged vars bind each key to the test's value when the test binds it
and to the default's value otherwise, and the merged assert list is the
defaults' asserts followed by the test's; without a defaultTest the test
list is unchanged. -/
theorem mergeDefaultTest_spec (d : TestCase) (tests : List TestCase) (i : Nat)
    (t : TestCase) (ht : tests[i]? = some t)
    (hnd : keysNodup (t.vars.getD []) = true) (k : String) (ts : List TestCase) :
    (mergeDefaultTest (some d) tests).length = tests.length ∧
      (mergeDefaultTest (some d) tests)[i]? = some (applyDefaultTest d t) ∧
      (applyDefaultTest d t).assert =
        some (d.assert.getD [] ++ t.assert.getD []) ∧
      List.lookup k ((applyDefaultTest d t).vars.getD []) =
        (List.lookup k (t.vars.getD [])).or (List.lookup k (d.vars.getD [])) ∧
      mergeDefaultTest none ts = ts := by
  refine ⟨by simp [mergeDefaultTest], ?_, rfl, ?_, rfl⟩
  · simp [mergeDefaultTest, List.getElem?_map, ht]
  · simp only [applyDefaultTest, Option.getD_some]
    exact lookup_spreadMerge _ _ hnd k

/-- Witness for C6 at a concrete defaultTest and test: the test's binding
for "b" wins, the default's binding for "a" survives, asserts
concatenate. -/
theorem mergeDefaultTest_spec_witness :
    (mergeDefaultTest
        (some { vars := some [("a", .numV 1), ("b", .numV 2)], assert := some [{ type := "contains" }] })
        [{ vars := some [("b", .numV 3)], assert := some [{ type := "equals" }] }]).length = 1 ∧
      (mergeDefaultTest
          (some { vars := some [("a", .numV 1), ("b", .numV 2)], assert := some [{ type := "contains" }] })
          [{ vars := some [("b", .numV 3)], assert := some [{ type := "equals" }] }])[0]? =
        some (applyDefaultTest
          { vars := some [("a", .numV 1), ("b", .numV 2)], assert := some [{ type := "contains" }] }
          { vars := some [("b", .numV 3)], assert := some [{ type := "equals" }] }) ∧
      (applyDefaultTest
          { vars := some [("a", .numV 1), ("b", .numV 2)], assert := some [{ type := "contains" }] }
          { vars := some [("b", .numV 3)], assert := some [{ type := "equals" }] }).assert =
        some ([{ type := "contains" }] ++ [{ type := "equals" }]) ∧
      List.lookup "b"
          ((applyDefaultTest
              { vars := some [("a", .numV 1), ("b", .numV 2)], assert := some [{ type := "contains" }] }
              { vars := some [("b", .numV 3)], assert := some [{ type := "equals" }] }).vars.getD []) =
        (List.lookup "b" [("b", PlainVal.numV 3)]).or
          (List.lookup "b" [("a", PlainVal.numV 1), ("b", PlainVal.numV 2)]) ∧
      mergeDefaultTest none [({} : TestCase)] = [({} : TestCase)] := by
  have h := mergeDefaultTest_spec
    { vars := some [("a", .numV 1), ("b", .numV 2)], assert := some [{ type := "contains" }] }
    [{ vars := some [("b", .numV 3)], assert := some [{ type := "equals" }] }] 0
    { vars := some [("b", .numV 3)], assert := some [{ type := "equals" }] }
    rfl (by decide) "b" [({} : TestCase)]
  simpa using h

/-- C7: missing config or storage makes `runTests` throw before resolving
any provider or enqueueing any work, and invalid consistency-assertion
arguments make the constructor throw before resolving a provider; the
constructor never invokes the rubric model. -/
theorem config_errors_fatal {σ : Type} (config? : Option Config) (storage? : Option σ)
    (runId : String) (now : Nat) (getA : GetAssertion)
    (outcome : Nat → Nat → TestOutput) (args args' : PlainVal)
    (hmiss : config? = none ∨ storage? = none)
    (hargs : parseConsistencyArgs args = none) :
    (runTests config? storage? runId now getA outcome).1 = [] ∧
      (runTests config? storage? runId now getA outcome).2.isOk = false ∧
      (createConsistencyAssertion args).1 = [] ∧
      (createConsistencyAssertion args).2 = .error "Invalid LLM Rubric arguments" ∧
      ConsistencyAction.rubricModelRun ∉ (createConsistencyAssertion args').1 := by
  have hrun : (runTests config? storage? runId now getA outcome).1 = [] ∧
      (runTests config? storage? runId now getA outcome).2.isOk = false := by
    cases hc : config? with
    | none => exact ⟨rfl, rfl⟩
    | some c =>
        cases hs : storage? with
        | none => exact ⟨rfl, rfl⟩
        | some s =>
            rw [hc, hs] at hmiss
            rcases hmiss with h | h <;> cases h
  refine ⟨hrun.1, hrun.2, ?_, ?_, ?_⟩
  · simp [createConsistencyAssertion, hargs]
  · simp [createConsistencyAssertion, hargs]
  · cases hp : parseConsistencyArgs args' <;>
      simp [createConsistencyAssertion, hp]

/-- Witness for C7: no config, a storage present, and numeric arguments
that fail the consistency args schema. -/
theorem config_errors_fatal_witness :
    (runTests (none : Option Config) (some () : Option Unit) "run-1" 7
        sampleGetAssertion sampleOutcome).1 = [] ∧
      (runTests (none : Option Config) (some () : Option Unit) "run-1" 7
          sampleGetAssertion sampleOutcome).2.isOk = false ∧
      (createConsistencyAssertion (.numV 0)).1 = [] ∧
      (createConsistencyAssertion (.numV 0)).2 = .error "Invalid LLM Rubric arguments" ∧
      ConsistencyAction.rubricModelRun ∉ (createConsistencyAssertion (.boolV true)).1 :=
  config_errors_fatal (none : Option Config) (some () : Option Unit) "run-1" 7
    sampleGetAssertion sampleOutcome (.numV 0) (.boolV true)
    (Or.inl rfl) rfl

/-- String appends with a non-empty left part stay non-empty under the
boolean equality with the empty string. -/
theorem append_beq_empty_false (s1 s2 : String) (h : s1 ≠ "") :
    ((s1 ++ s2) == "") = false := by
  rw [beq_eq_false_iff_ne]
  intro hcontra
  apply h
  have hlen := congrArg String.length hcontra
  rw [String.length_append] at hlen
  have h1 : s1.length = 0 := by
    simpa using Nat.eq_zero_of_add_eq_zero_right hlen
  cases s1 with
  | mk data =>
      cases data with
      | nil => rfl
      | cons c cs => simp [String.length] at h1

/-- C4: when the rubric model call yields no extractable text output, or
text whose first extracted JSON object fails validation as an Assertion
Result, the consistency assertion returns one failing result with a
non-empty diagnostic message for every position of the input vector. -/
theorem consistency_malformed_rubric_fails_all
    (extractAll : String → List PlainVal)
    (rubricEval : List (List OutputPart) → TestOutput)
    (results : List TestResult)
    (h : jsFalsyOptStr
          (extractOutputAsString (rubricEval (consistencyMapOutputs results)).output) = true
        ∨ assertionResultParse
            (extractAll
              ((extractOutputAsString
                (rubricEval (consistencyMapOutputs results)).output).getD "")).head? = none) :
    (consistencyRun extractAll rubricEval results).length = results.length ∧
      (consistencyRun extractAll rubricEval results).all
        (fun r => !r.pass && !(r.message.getD "" == "")) = true := by
  have key : ∃ res : AssertionResult, res.pass = false ∧
      (res.message.getD "" == "") = false ∧
      consistencyRun extractAll rubricEval results =
        List.replicate results.length res := by
    unfold consistencyRun
    by_cases hf : jsFalsyOptStr
        (extractOutputAsString (rubricEval (consistencyMapOutputs results)).output) = true
    · dsimp only
      rw [if_pos hf]
      refine ⟨{ pass := false
                message := some ("Rubric did not succeed: "
                  ++ (rubricEval (consistencyMapOutputs results)).error.getD "No error message") },
        rfl, ?_, rfl⟩
      rw [Option.getD_some, beq_eq_false_iff_ne]
      intro hc
      have hlen := congrArg String.length hc
      rw [String.length_append] at hlen
      rw [show ("" : String).length = 0 from rfl] at hlen
      have hp : 0 < ("Rubric did not succeed: " : String).length := by decide
      omega
    · rcases h with h | h
      · exact absurd h hf
      · dsimp only
        rw [if_neg hf, h]
        refine ⟨{ pass := false
                  message := some ("Invalid rubric output: \""
                    ++ (extractOutputAsString
                          (rubricEval (consistencyMapOutputs results)).output).getD ""
                    ++ "\"") },
          rfl, ?_, rfl⟩
        rw [Option.getD_some, beq_eq_false_iff_ne]
        intro hc
        have hlen := congrArg String.length hc
        rw [String.length_append, String.length_append] at hlen
        rw [show ("" : String).length = 0 from rfl] at hlen
        have hp : 0 < ("Invalid rubric output: \"" : String).length := by decide
        omega
  obtain ⟨res, hpass, hmsg, hrw⟩ := key
  rw [hrw]
  refine ⟨List.length_replicate _ _, ?_⟩
  rw [List.all_eq_true]
  intro r hr
  rw [List.eq_of_mem_replicate hr]
  simp [hpass, hmsg]

/-- Witness for C4: a rubric environment producing no output fails the
single position with a diagnostic. -/
theorem consistency_malformed_rubric_fails_all_witness :
    (consistencyRun (fun _ => []) (fun _ => {}) [{ pass := true }]).length = 1 ∧
      (consistencyRun (fun _ => []) (fun _ => {}) [{ pass := true }]).all
        (fun r => !r.pass && !(r.message.getD "" == "")) = true :=
  consistency_malformed_rubric_fails_all (fun _ => []) (fun _ => {})
    [{ pass := true }] (Or.inl (by decide))

/-- C5 counterexample: an entry whose output is present but is the empty
string is mapped to the empty contribution, not to a one-element list
wrapping the string. -/
theorem consistency_map_output_counterexample :
    consistencyMapOutputs [{ pass := false, output := some (.str "") }] = [[]] ∧
      ([[]] : List (List OutputPart)) ≠ [[OutputPart.text ""]] := by
  exact ⟨rfl, by decide⟩

/-- C5 amended: the consistency assertion maps each entry positionally;
an entry with a missing output, or with the empty string as output, is
mapped to an empty contribution, a non-empty plain-string output is
wrapped into a one-element list, and a multi-part output passes through
unchanged. -/
theorem consistency_map_output_amended (results : List TestResult) (i : Nat)
    (r : TestResult) (hr : results[i]? = some r)
    (s : String) (hs : s ≠ "") (ps : List OutputPart) :
    (consistencyMapOutputs results).length = results.length ∧
      (consistencyMapOutputs results)[i]? = some (mapCellOutput r.output) ∧
      (r.output = none → mapCellOutput r.output = []) ∧
      mapCellOutput (some (.str "")) = [] ∧
      mapCellOutput (some (.str s)) = [.text s] ∧
      mapCellOutput (some (.parts ps)) = ps := by
  refine ⟨by simp [consistencyMapOutputs], ?_, ?_, rfl, ?_, rfl⟩
  · simp [consistencyMapOutputs, List.getElem?_map, hr]
  · intro hno
    rw [hno]
    rfl
  · have hsb : (s == "") = false := beq_eq_false_iff_ne.mpr hs
    simp [mapCellOutput, hsb]

/-- Witness for C5 amended at a concrete vector. -/
theorem consistency_map_output_amended_witness :
    (consistencyMapOutputs
        [{ pass := false, output := none },
         { pass := true, output := some (.str "hi") }]).length = 2 ∧
      (consistencyMapOutputs
          [{ pass := false, output := none },
           { pass := true, output := some (.str "hi") }])[0]? =
        some (mapCellOutput (none : Option CellOutput)) ∧
      ((none : Option CellOutput) = none →
        mapCellOutput (none : Option CellOutput) = []) ∧
      mapCellOutput (some (.str "")) = [] ∧
      mapCellOutput (some (.str "hi")) = [.text "hi"] ∧
      mapCellOutput (some (.parts [.text "a", .blob])) = [.text "a", .blob] := by
  have h := consistency_map_output_amended
    [{ pass := false, output := none }, { pass := true, output := some (.str "hi") }]
    0 { pass := false, output := none } rfl "hi" (by decide) [.text "a", .blob]
  simpa using h

/-- An `ok` outcome of the event loop pinpoints its final response: it is
the payload of a completed event with no later completed event, or the
completion carried in from the accumulator when the remaining stream has
none. -/
theorem processEvents_ok_shape (evs : List RespEvent) :
    ∀ (ft : String) (final? : Option ResponsePayload) (ft' : String)
      (r : ResponsePayload),
      processEvents evs ft final? = .ok (ft', r) →
        (∃ pre suf, evs = pre ++ RespEvent.completed r :: suf ∧
            ∀ e ∈ suf, e.isCompleted = false) ∨
          (final? = some r ∧ ∀ e ∈ evs, e.isCompleted = false) := by
  induction evs with
  | nil =>
      intro ft final? ft' r h
      cases final? with
      | none => exact absurd h (by simp [processEvents])
      | some r0 =>
          right
          have h' : ft = ft' ∧ r0 = r := by simpa [processEvents] using h
          exact ⟨by rw [h'.2], by simp⟩
  | cons ev evs ih =>
      intro ft final? ft' r h
      cases ev with
      | outputTextDelta d =>
          rcases ih _ _ _ _ h with ⟨pre, suf, heq, hsuf⟩ | ⟨hfin, hall⟩
          · exact Or.inl ⟨.outputTextDelta d :: pre, suf, by rw [heq]; rfl, hsuf⟩
          · refine Or.inr ⟨hfin, ?_⟩
            intro e he
            rcases List.mem_cons.mp he with rfl | he'
            · rfl
            · exact hall e he'
      | refusalDelta d =>
          rcases ih _ _ _ _ h with ⟨pre, suf, heq, hsuf⟩ | ⟨hfin, hall⟩
          · exact Or.inl ⟨.refusalDelta d :: pre, suf, by rw [heq]; rfl, hsuf⟩
          · refine Or.inr ⟨hfin, ?_⟩
            intro e he
            rcases List.mem_cons.mp he with rfl | he'
            · rfl
            · exact hall e he'
      | otherEvent =>
          rcases ih _ _ _ _ h with ⟨pre, suf, heq, hsuf⟩ | ⟨hfin, hall⟩
          · exact Or.inl ⟨.otherEvent :: pre, suf, by rw [heq]; rfl, hsuf⟩
          · refine Or.inr ⟨hfin, ?_⟩
            intro e he
            rcases List.mem_cons.mp he with rfl | he'
            · rfl
            · exact hall e he'
      | completed r0 =>
          rcases ih _ _ _ _ h with ⟨pre, suf, heq, hsuf⟩ | ⟨hfin, hall⟩
          · exact Or.inl ⟨.completed r0 :: pre, suf, by rw [heq]; rfl, hsuf⟩
          · have hr0 : r0 = r := Option.some.inj hfin
            subst hr0
            exact Or.inl ⟨[], evs, rfl, hall⟩
      | errorEvent m => exact absurd h (by simp [processEvents])
      | failedEvent m reason => exact absurd h (by simp [processEvents])

/-- A stream with no completed event can never deliver an `ok` result. -/
theorem processEvents_no_completed_not_ok (evs : List RespEvent) :
    ∀ ft : String, (∀ e ∈ evs, e.isCompleted = false) →
      (processEvents evs ft none).isOk = false := by
  induction evs with
  | nil => intro ft _; rfl
  | cons ev evs ih =>
      intro ft hall
      cases ev with
      | outputTextDelta d => exact ih _ fun e he => hall e (List.mem_cons_of_mem _ he)
      | refusalDelta d => exact ih _ fun e he => hall e (List.mem_cons_of_mem _ he)
      | otherEvent => exact ih _ fun e he => hall e (List.mem_cons_of_mem _ he)
      | completed r0 => exact absurd (hall _ (List.mem_cons_self _ _)) (by simp [RespEvent.isCompleted])
      | errorEvent m => rfl
      | failedEvent m reason => rfl

/-- A stream with neither a completed event nor an error or failed event
ends in the missing-completion error. -/
theorem processEvents_missing_completion (evs : List RespEvent) :
    ∀ ft : String,
      (∀ e ∈ evs, e.isCompleted = false ∧ e.isFailure = false) →
      processEvents evs ft none = .error "Failed to run model: missing completion" := by
  induction evs with
  | nil => intro ft _; rfl
  | cons ev evs ih =>
      intro ft hall
      cases ev with
      | outputTextDelta d => exact ih _ fun e he => hall e (List.mem_cons_of_mem _ he)
      | refusalDelta d => exact ih _ fun e he => hall e (List.mem_cons_of_mem _ he)
      | otherEvent => exact ih _ fun e he => hall e (List.mem_cons_of_mem _ he)
      | completed r0 =>
          exact absurd (hall _ (List.mem_cons_self _ _)).1 (by simp [RespEvent.isCompleted])
      | errorEvent m =>
          exact absurd (hall _ (List.mem_cons_self _ _)).2 (by simp [RespEvent.isFailure])
      | failedEvent m reason =>
          exact absurd (hall _ (List.mem_cons_self _ _)).2 (by simp [RespEvent.isFailure])

/-- C8: a run whose event stream carries no completed event never
returns a result; with no error or failed event either, the error is
precisely the missing-completion error; and a successful run returns as
its structured response exactly the payload of the last completed event
of the stream, independent of the accumulated deltas. -/
theorem responses_completion_authoritative (messages : List ResponseMessage)
    (evs : List RespEvent) (ret : StreamSuccess) :
    ((∀ e ∈ evs, e.isCompleted = false) →
        (runModelResult messages evs).isOk = false) ∧
      ((∀ e ∈ evs, e.isCompleted = false ∧ e.isFailure = false) →
        runModelResult messages evs = .error "Failed to run model: missing completion") ∧
      (runModelResult messages evs = .ok ret →
        ∃ pre suf, evs = pre ++ RespEvent.completed ret.response :: suf ∧
          ∀ e ∈ suf, e.isCompleted = false) := by
  refine ⟨?_, ?_, ?_⟩
  · intro hall
    unfold runModelResult
    cases hpe : processEvents evs "" none with
    | error e => rfl
    | ok v =>
        have := processEvents_no_completed_not_ok evs "" hall
        rw [hpe] at this
        exact absurd this (by simp [Except.isOk, Except.toBool])
  · intro hall
    unfold runModelResult
    rw [processEvents_missing_completion evs "" fun e he => hall e he]
  · intro hok
    unfold runModelResult at hok
    cases hpe : processEvents evs "" none with
    | error e => rw [hpe] at hok; exact absurd hok (by simp)
    | ok v =>
        obtain ⟨ft0, r0⟩ := v
        rw [hpe] at hok
        have hresp : ret.response = r0 := by
          have := congrArg StreamSuccess.response (Except.ok.inj hok)
          exact this.symm
        rw [hresp]
        rcases processEvents_ok_shape evs "" none ft0 r0 hpe with hshape | ⟨hfin, _⟩
        · exact hshape
        · exact absurd hfin (by simp)

/-- Witness for C8: an error-only stream returns no result, a pure delta
stream fails with the missing-completion error, and a stream with one
completed event returns exactly its payload. -/
theorem responses_completion_authoritative_witness :
    ((runModelResult [] [RespEvent.errorEvent "boom"]).isOk = false) ∧
      (runModelResult [] [RespEvent.outputTextDelta (some "partial")] =
        .error "Failed to run model: missing completion") ∧
      (∃ pre suf,
        [RespEvent.outputTextDelta (some "x"), RespEvent.completed { id := "r1" }] =
          pre ++ RespEvent.completed
            ({ response := { id := "r1" }
               sessionState := [{ role := .assistant, content := .str "x" }] } :
              StreamSuccess).response :: suf ∧
          ∀ e ∈ suf, e.isCompleted = false) :=
  ⟨(responses_completion_authoritative [] [RespEvent.errorEvent "boom"]
      { response := { id := "w" }, sessionState := [] }).1 (by decide),
   (responses_completion_authoritative [] [RespEvent.outputTextDelta (some "partial")]
      { response := { id := "w" }, sessionState := [] }).2.1 (by decide),
   (responses_completion_authoritative []
      [RespEvent.outputTextDelta (some "x"), RespEvent.completed { id := "r1" }]
      { response := { id := "r1" }
        sessionState := [{ role := .assistant, content := .str "x" }] }).2.2 rfl⟩

/-- Filtering the index range for one index keeps exactly that index. -/
theorem filter_beq_range (n t : Nat) (h : t < n) :
    (List.range n).filter (fun x => x == t) = [t] := by
  induction n with
  | zero => omega
  | succ n ih =>
      rw [List.range_succ, List.filter_append]
      by_cases ht : t = n
      · subst ht
        have hnil : (List.range t).filter (fun x => x == t) = [] := by
          rw [List.filter_eq_nil_iff]
          intro a ha
          have := List.mem_range.mp ha
          simp only [beq_iff_eq]
          omega
        rw [hnil]
        simp
      · have ht' : t < n := by omega
        rw [ih ht']
        have : ((n == t)) = false := by simpa using fun hc => ht hc.symm
        simp [this]

/-- The results row of test `ti`: one settled cell per environment. -/
theorem runResults_getD (getA : GetAssertion) (outcome : Nat → Nat → TestOutput)
    (tests : List TestCase) (envCount : Nat) (ti : Nat) (t : TestCase)
    (ht : tests[ti]? = some t) :
    (runResults getA outcome tests envCount).getD ti [] =
      (List.range envCount).map fun ei =>
        runCell (outcome ti ei) (cellAssertions getA t) := by
  rw [List.getD_eq_getElem?_getD]
  unfold runResults
  rw [List.getElem?_map, List.getElem?_enum, ht]
  rfl

/-- C3: in the orchestrated trace, the row assertions of test `ti` are
invoked exactly once, with the full vector of that test's result cells
(one per environment), strictly after every cell of the run has settled
and before the Run is finalized. -/
theorem row_assertions_after_completion (getA : GetAssertion)
    (outcome : Nat → Nat → TestOutput) (tests : List TestCase) (envCount : Nat)
    (ti : Nat) (hti : ti < tests.length) :
    ((orchestrateEvents getA outcome tests envCount).filter
        (RunEvent.isRowInvokeFor ti)).length = 1 ∧
      (∀ row, RunEvent.rowAssertInvoked ti row ∈
          orchestrateEvents getA outcome tests envCount →
        row = (runResults getA outcome tests envCount).getD ti [] ∧
          row.length = envCount) ∧
      (∀ pre suf row,
        orchestrateEvents getA outcome tests envCount =
            pre ++ RunEvent.rowAssertInvoked ti row :: suf →
        (∀ ei, ei < envCount → RunEvent.cellSettled ti ei ∈ pre) ∧
          RunEvent.runFinalized ∉ pre) := by
  have horch : orchestrateEvents getA outcome tests envCount =
      (((List.range tests.length).flatMap fun t =>
          (List.range envCount).map fun ei => RunEvent.cellSettled t ei)
        ++ ((List.range tests.length).map fun t =>
              RunEvent.rowAssertInvoked t
                ((runResults getA outcome tests envCount).getD t [])))
      ++ [RunEvent.runFinalized] := rfl
  have hcells_shape : ∀ e ∈ ((List.range tests.length).flatMap fun t =>
      (List.range envCount).map fun ei => RunEvent.cellSettled t ei),
      ∃ a b, e = RunEvent.cellSettled a b := by
    intro e he
    obtain ⟨tt, _, he2⟩ := List.mem_flatMap.mp he
    obtain ⟨ee, _, he3⟩ := List.mem_map.mp he2
    exact ⟨tt, ee, he3.symm⟩
  have hrows_shape : ∀ e ∈ ((List.range tests.length).map fun t =>
      RunEvent.rowAssertInvoked t
        ((runResults getA outcome tests envCount).getD t [])),
      ∃ a b, e = RunEvent.rowAssertInvoked a b := by
    intro e he
    obtain ⟨tt, _, he2⟩ := List.mem_map.mp he
    exact ⟨tt, _, he2.symm⟩
  have hrow_len : ((runResults getA outcome tests envCount).getD ti []).length
      = envCount := by
    have ht := List.getElem?_eq_getElem hti
    rw [runResults_getD getA outcome tests envCount ti _ ht]
    simp
  refine ⟨?_, ?_, ?_⟩
  · rw [horch, List.filter_append, List.filter_append]
    have h1 : (((List.range tests.length).flatMap fun t =>
        (List.range envCount).map fun ei => RunEvent.cellSettled t ei)).filter
          (RunEvent.isRowInvokeFor ti) = [] := by
      rw [List.filter_eq_nil_iff]
      intro e he
      obtain ⟨a, b, rfl⟩ := hcells_shape e he
      simp [RunEvent.isRowInvokeFor]
    have h2 : (((List.range tests.length).map fun t =>
        RunEvent.rowAssertInvoked t
          ((runResults getA outcome tests envCount).getD t []))).filter
            (RunEvent.isRowInvokeFor ti) =
        ((List.range tests.length).filter fun t => t == ti).map fun t =>
          RunEvent.rowAssertInvoked t
            ((runResults getA outcome tests envCount).getD t []) := by
      rw [List.filter_map]
      rfl
    rw [h1, h2, filter_beq_range tests.length ti hti]
    simp [RunEvent.isRowInvokeFor]
  · intro row hmem
    rw [horch] at hmem
    rcases List.mem_append.mp hmem with hmem | hfin
    · rcases List.mem_append.mp hmem with hc | hr
      · obtain ⟨a, b, habs⟩ := hcells_shape _ hc
        cases habs
      · obtain ⟨tt, htt, he2⟩ := List.mem_map.mp hr
        have h1 : tt = ti := by
          have := congrArg (fun e => match e with
            | RunEvent.rowAssertInvoked t _ => t
            | _ => 0) he2
          simpa using this
        subst h1
        have h2 : (runResults getA outcome tests envCount).getD tt [] = row := by
          have := congrArg (fun e => match e with
            | RunEvent.rowAssertInvoked _ r => r
            | _ => []) he2
          simpa using this
        exact ⟨h2.symm, h2 ▸ hrow_len⟩
    · rcases List.mem_singleton.mp hfin with h
      cases h
  · intro pre suf row heq
    rw [horch] at heq
    rw [List.append_assoc] at heq
    have hx_not_cells : RunEvent.rowAssertInvoked ti row ∉
        ((List.range tests.length).flatMap fun t =>
          (List.range envCount).map fun ei => RunEvent.cellSettled t ei) := by
      intro hc
      obtain ⟨a, b, habs⟩ := hcells_shape _ hc
      cases habs
    rcases List.append_eq_append_iff.mp heq with ⟨a', ha1, ha2⟩ | ⟨c', hc1, hc2⟩
    · constructor
      · intro ei hei
        rw [ha1]
        refine List.mem_append.mpr (Or.inl ?_)
        exact List.mem_flatMap.mpr ⟨ti, List.mem_range.mpr hti,
          List.mem_map.mpr ⟨ei, List.mem_range.mpr hei, rfl⟩⟩
      · intro hfin
        rw [ha1] at hfin
        rcases List.mem_append.mp hfin with hf | hf
        · obtain ⟨a, b, habs⟩ := hcells_shape _ hf
          cases habs
        · rcases List.append_eq_append_iff.mp ha2 with ⟨b', hb1, hb2⟩ | ⟨b', hb1, hb2⟩
          · -- here [fin] = b' ++ x :: suf, forcing the row event into [fin]
            cases b' with
            | nil =>
                rw [List.nil_append] at hb2
                injection hb2 with h1 h2
                cases h1
            | cons z zs =>
                have hlen := congrArg List.length hb2
                simp at hlen
          · -- here rows = a' ++ b', so a' holds row invocations only
            have hfr : RunEvent.runFinalized ∈ ((List.range tests.length).map fun t =>
                RunEvent.rowAssertInvoked t
                  ((runResults getA outcome tests envCount).getD t [])) := by
              rw [hb1]
              exact List.mem_append.mpr (Or.inl hf)
            obtain ⟨a, b, habs⟩ := hrows_shape _ hfr
            cases habs
    · cases c' with
      | nil =>
          rw [List.append_nil] at hc1
          constructor
          · intro ei hei
            rw [← hc1]
            exact List.mem_flatMap.mpr ⟨ti, List.mem_range.mpr hti,
              List.mem_map.mpr ⟨ei, List.mem_range.mpr hei, rfl⟩⟩
          · intro hfin
            rw [← hc1] at hfin
            obtain ⟨a, b, habs⟩ := hcells_shape _ hfin
            cases habs
      | cons y c'' =>
          exfalso
          apply hx_not_cells
          rw [hc1]
          have hy : y = RunEvent.rowAssertInvoked ti row := by
            have := congrArg (fun l => l.head?) hc2
            simpa using this.symm
          refine List.mem_append.mpr (Or.inr ?_)
          rw [hy]
          exact List.mem_cons_self _ _

/-- Witness for C3 at two tests and two environments, for the first
test. -/
theorem row_assertions_after_completion_witness :
    ((orchestrateEvents sampleGetAssertion sampleOutcome [({} : TestCase), {}] 2).filter
        (RunEvent.isRowInvokeFor 0)).length = 1 ∧
      (∀ row, RunEvent.rowAssertInvoked 0 row ∈
          orchestrateEvents sampleGetAssertion sampleOutcome [({} : TestCase), {}] 2 →
        row = (runResults sampleGetAssertion sampleOutcome [({} : TestCase), {}] 2).getD 0 [] ∧
          row.length = 2) ∧
      (∀ pre suf row,
        orchestrateEvents sampleGetAssertion sampleOutcome [({} : TestCase), {}] 2 =
            pre ++ RunEvent.rowAssertInvoked 0 row :: suf →
        (∀ ei, ei < 2 → RunEvent.cellSettled 0 ei ∈ pre) ∧
          RunEvent.runFinalized ∉ pre) :=
  row_assertions_after_completion sampleGetAssertion sampleOutcome
    [({} : TestCase), {}] 2 0 (by decide)

/-! ### Injectivity of the decimal index strings (for C9) -/

/-- Fuel-generic evaluation of the core decimal printer. -/
theorem toDigitsCore_eval :
    ∀ f n acc, n < f →
      Nat.toDigitsCore 10 f n acc =
        (if n = 0 then ['0'] else ((Nat.digits 10 n).map Nat.digitChar).reverse) ++ acc := by
  intro f
  induction f with
  | zero => intro n acc h; omega
  | succ f ih =>
      intro n acc h
      by_cases h0 : n = 0
      · subst h0
        simp [Nat.toDigitsCore, Nat.digitChar]
      · by_cases hsmall : n < 10
        · have hdiv : n / 10 = 0 := Nat.div_eq_of_lt hsmall
          have hmod : n % 10 = n := Nat.mod_eq_of_lt hsmall
          simp only [Nat.toDigitsCore, hdiv, if_true, hmod]
          rw [Nat.digits_of_lt 10 n h0 hsmall]
          simp [h0]
        · have hge : 10 ≤ n := by omega
          have hdiv : n / 10 ≠ 0 := by
            intro hc
            have := Nat.div_eq_of_lt (by omega : n < 10)
            omega
          have hdivlt : n / 10 < f := by
            have h1 : n / 10 < n := Nat.div_lt_self (by omega) (by omega)
            omega
          simp only [Nat.toDigitsCore, hdiv, if_false]
          rw [ih (n / 10) _ hdivlt]
          have hd : Nat.digits 10 n = n % 10 :: Nat.digits 10 (n / 10) :=
            Nat.digits_def' (by omega) (by omega)
          rw [hd]
          have hdiv0 : ¬ n / 10 = 0 := hdiv
          simp only [h0, hdiv0, if_false, List.map_cons, List.reverse_cons, List.append_assoc,
            List.cons_append, List.nil_append]

/-- Decimal string of a natural number in terms of its digits. -/
theorem natRepr_eq (n : Nat) :
    Nat.repr n =
      (if n = 0 then ['0'] else ((Nat.digits 10 n).map Nat.digitChar).reverse).asString := by
  unfold Nat.repr Nat.toDigits
  rw [toDigitsCore_eval (n + 1) n [] (Nat.lt_succ_self n), List.append_nil]

/-- Decimal digit characters are distinct for digits below ten. -/
theorem digitChar_inj_lt :
    ∀ a, a < 10 → ∀ b, b < 10 → Nat.digitChar a = Nat.digitChar b → a = b := by decide

/-- Mapping to digit characters is injective on digit lists. -/
theorem map_digitChar_inj :
    ∀ l1 l2 : List Nat, (∀ x ∈ l1, x < 10) → (∀ x ∈ l2, x < 10) →
      l1.map Nat.digitChar = l2.map Nat.digitChar → l1 = l2 := by
  intro l1
  induction l1 with
  | nil => intro l2 _ _ h; cases l2 with
      | nil => rfl
      | cons y ys => simp at h
  | cons x xs ih =>
      intro l2 h1 h2 h
      cases l2 with
      | nil => simp at h
      | cons y ys =>
          simp only [List.map_cons, List.cons.injEq] at h
          have hx := h1 x (List.mem_cons_self _ _)
          have hy := h2 y (List.mem_cons_self _ _)
          have hxy := digitChar_inj_lt x hx y hy h.1
          rw [hxy, ih ys (fun z hz => h1 z (List.mem_cons_of_mem _ hz))
            (fun z hz => h2 z (List.mem_cons_of_mem _ hz)) h.2]

/-- The decimal printer of natural numbers is injective. -/
theorem natRepr_injective : ∀ m n : Nat, Nat.repr m = Nat.repr n → m = n := by
  intro m n h
  rw [natRepr_eq, natRepr_eq] at h
  have hdata : (if m = 0 then ['0'] else ((Nat.digits 10 m).map Nat.digitChar).reverse)
      = (if n = 0 then ['0'] else ((Nat.digits 10 n).map Nat.digitChar).reverse) :=
    congrArg String.data h
  by_cases hm : m = 0 <;> by_cases hn : n = 0
  · rw [hm, hn]
  · exfalso
    rw [if_pos hm, if_neg hn] at hdata
    have hrev := congrArg List.reverse hdata
    rw [List.reverse_reverse] at hrev
    have : Nat.digits 10 n = [0] := by
      refine map_digitChar_inj _ _ ?_ ?_ ?_
      · intro x hx; exact Nat.digits_lt_base (by omega) hx
      · intro x hx; simp at hx; omega
      · simpa using hrev.symm
    have h0 : n = Nat.ofDigits 10 (Nat.digits 10 n) := (Nat.ofDigits_digits 10 n).symm
    rw [this] at h0
    simp [Nat.ofDigits] at h0
    exact hn h0
  · exfalso
    rw [if_neg hm, if_pos hn] at hdata
    have hrev := congrArg List.reverse hdata
    rw [List.reverse_reverse] at hrev
    have : Nat.digits 10 m = [0] := by
      refine map_digitChar_inj _ _ ?_ ?_ ?_
      · intro x hx; exact Nat.digits_lt_base (by omega) hx
      · intro x hx; simp at hx; omega
      · simpa using hrev
    have h0 : m = Nat.ofDigits 10 (Nat.digits 10 m) := (Nat.ofDigits_digits 10 m).symm
    rw [this] at h0
    simp [Nat.ofDigits] at h0
    exact hm h0
  · rw [if_neg hm, if_neg hn] at hdata
    have hrev := congrArg List.reverse hdata
    rw [List.reverse_reverse, List.reverse_reverse] at hrev
    have hdig : Nat.digits 10 m = Nat.digits 10 n := by
      refine map_digitChar_inj _ _ ?_ ?_ hrev
      · intro x hx; exact Nat.digits_lt_base (by omega) hx
      · intro x hx; exact Nat.digits_lt_base (by omega) hx
    exact Nat.digits.injective 10 hdig

/-! ### Entry-list lemmas for deepEquals (C9) -/

/-- Lookup hits are members. -/
theorem lookup_mem {β : Type} (l : List (String × β)) (k : String) (w : β)
    (h : List.lookup k l = some w) : (k, w) ∈ l := by
  induction l with
  | nil => simp at h
  | cons p rest ih =>
      obtain ⟨pk, pv⟩ := p
      rw [List.lookup_cons] at h
      cases hq : (k == pk) with
      | true =>
          rw [hq] at h
          have hk : k = pk := by simpa using hq
          have hv : pv = w := by simpa using h
          rw [hk, hv]
          exact List.mem_cons_self _ _
      | false =>
          rw [hq] at h
          exact List.mem_cons_of_mem _ (ih h)

/-- normMap is the value-wise map. -/
theorem normMap_eq_map (l : List (String × PlainVal)) :
    normMap l = l.map fun p => (p.1, normJs p.2) := by
  induction l with
  | nil => rfl
  | cons p rest ih => obtain ⟨k, v⟩ := p; rw [List.map_cons, ← ih]; rfl

/-- Lookup through normMap. -/
theorem lookup_normMap (l : List (String × PlainVal)) (k : String) :
    List.lookup k (normMap l) = (List.lookup k l).map normJs := by
  induction l with
  | nil => rfl
  | cons p rest ih =>
      obtain ⟨pk, pv⟩ := p
      rw [show normMap ((pk, pv) :: rest) = (pk, normJs pv) :: normMap rest from rfl]
      rw [List.lookup_cons, List.lookup_cons]
      cases hq : (k == pk) <;> simp [ih]

/-- normMap preserves length. -/
theorem length_normMap (l : List (String × PlainVal)) :
    (normMap l).length = l.length := by
  rw [normMap_eq_map, List.length_map]

/-- normMap preserves keys. -/
theorem keys_normMap (l : List (String × PlainVal)) :
    (normMap l).map Prod.fst = l.map Prod.fst := by
  rw [normMap_eq_map, List.map_map]
  rfl

/-- Sequence normalization is the normMap of its entries. -/
theorem normSeq_eq_normMap (xs : List PlainVal) :
    ∀ i, normSeq i xs = normMap (seqEntries i xs) := by
  induction xs with
  | nil => intro i; rfl
  | cons v vs ih =>
      intro i
      rw [show normSeq i (v :: vs) = (Nat.repr i, normJs v) :: normSeq (i + 1) vs from rfl,
        show seqEntries i (v :: vs) = (Nat.repr i, v) :: seqEntries (i + 1) vs from rfl,
        show normMap ((Nat.repr i, v) :: seqEntries (i + 1) vs)
          = (Nat.repr i, normJs v) :: normMap (seqEntries (i + 1) vs) from rfl,
        ih]

/-- Entry lists of sequences have one entry per element. -/
theorem length_seqEntries (xs : List PlainVal) :
    ∀ i, (seqEntries i xs).length = xs.length := by
  induction xs with
  | nil => intro i; rfl
  | cons v vs ih => intro i; simp [seqEntries, ih]

/-- The array walk of deepEquals is the object walk of its entries. -/
theorem seqEntriesEq_eq (xs : List PlainVal) :
    ∀ i eb, seqEntriesEq i xs eb = mapEntriesEq (seqEntries i xs) eb := by
  induction xs with
  | nil => intro i eb; rfl
  | cons v vs ih => intro i eb; rw [show seqEntriesEq i (v :: vs) eb
      = ((match List.lookup (Nat.repr i) eb with
          | none => false
          | some w => deepEquals v w) && seqEntriesEq (i + 1) vs eb) from rfl, ih]; rfl

/-- Entries of a sequence carry index keys at least the start index, and
values from the sequence. -/
theorem mem_seqEntries (xs : List PlainVal) :
    ∀ i p, p ∈ seqEntries i xs →
      (∃ m, i ≤ m ∧ p.1 = Nat.repr m) ∧ p.2 ∈ xs := by
  induction xs with
  | nil => intro i p h; simp [seqEntries] at h
  | cons v vs ih =>
      intro i p h
      rw [show seqEntries i (v :: vs) = (Nat.repr i, v) :: seqEntries (i + 1) vs from rfl] at h
      rcases List.mem_cons.mp h with rfl | h'
      · exact ⟨⟨i, Nat.le_refl i, rfl⟩, List.mem_cons_self _ _⟩
      · obtain ⟨⟨m, hm, hp⟩, hv⟩ := ih (i + 1) p h'
        exact ⟨⟨m, by omega, hp⟩, List.mem_cons_of_mem _ hv⟩

/-- The index keys of a sequence entry list are pairwise distinct. -/
theorem keysNodup_seqEntries (xs : List PlainVal) :
    ∀ i, keysNodup (seqEntries i xs) = true := by
  induction xs with
  | nil => intro i; rfl
  | cons v vs ih =>
      intro i
      rw [show seqEntries i (v :: vs) = (Nat.repr i, v) :: seqEntries (i + 1) vs from rfl,
        keysNodup, Bool.and_eq_true_iff]
      refine ⟨?_, ih (i + 1)⟩
      rw [Bool.not_eq_true']
      unfold hasKey
      cases hl : List.lookup (Nat.repr i) (seqEntries (i + 1) vs) with
      | none => rfl
      | some w =>
          exfalso
          have hmem := lookup_mem _ _ _ hl
          obtain ⟨⟨m, hm, hp⟩, -⟩ := mem_seqEntries vs (i + 1) _ hmem
          have := natRepr_injective i m (by simpa using hp)
          omega

/-- Values of a well-formed entry list are well formed. -/
theorem wfEntries_mem (l : List (String × PlainVal)) (k : String) (v : PlainVal)
    (hw : wfEntries l = true) (hm : (k, v) ∈ l) : wfVal v = true := by
  induction l with
  | nil => simp at hm
  | cons p rest ih =>
      obtain ⟨pk, pv⟩ := p
      rw [show wfEntries ((pk, pv) :: rest) = (wfVal pv && wfEntries rest) from rfl,
        Bool.and_eq_true_iff] at hw
      rcases List.mem_cons.mp hm with heq | hm'
      · cases heq; exact hw.1
      · exact ih hw.2 hm'

/-- Elements of a well-formed value list are well formed. -/
theorem wfList_mem (l : List PlainVal) (v : PlainVal)
    (hw : wfList l = true) (hm : v ∈ l) : wfVal v = true := by
  induction l with
  | nil => simp at hm
  | cons x rest ih =>
      rw [show wfList (x :: rest) = (wfVal x && wfList rest) from rfl,
        Bool.and_eq_true_iff] at hw
      rcases List.mem_cons.mp hm with heq | hm'
      · cases heq; exact hw.1
      · exact ih hw.2 hm'

/-- Lookup succeeds exactly on the keys of an entry list. -/
theorem lookup_isSome_iff_mem_keys (l : List (String × PlainVal)) (k : String) :
    (List.lookup k l).isSome = true ↔ k ∈ l.map Prod.fst := by
  rw [List.lookup_isSome_iff]
  constructor
  · rintro ⟨p, hp, hk⟩
    exact List.mem_map.mpr ⟨p, hp, (by simpa using hk : k = p.1).symm⟩
  · intro hk
    obtain ⟨p, hp, hpk⟩ := List.mem_map.mp hk
    exact ⟨p, hp, by simp [hpk]⟩

/-- Distinct entry keys in the boolean sense give a Nodup key list. -/
theorem keysNodup_nodup (l : List (String × PlainVal))
    (h : keysNodup l = true) : (l.map Prod.fst).Nodup := by
  induction l with
  | nil => exact List.nodup_nil
  | cons p rest ih =>
      obtain ⟨pk, pv⟩ := p
      rw [keysNodup, Bool.and_eq_true_iff] at h
      rw [List.map_cons, List.nodup_cons]
      refine ⟨?_, ih h.2⟩
      intro hc
      have := (lookup_isSome_iff_mem_keys rest pk).mpr hc
      rw [Bool.not_eq_true'] at *
      have h1 := h.1
      unfold hasKey at h1
      rw [h1] at this
      cases this

/-- Characterization of the object walk of deepEquals. -/
theorem mapEntriesEq_iff (ea eb : List (String × PlainVal)) :
    mapEntriesEq ea eb = true ↔
      ∀ p ∈ ea, ∃ w, List.lookup p.1 eb = some w ∧ deepEquals p.2 w = true := by
  induction ea with
  | nil => simp [mapEntriesEq]
  | cons p rest ih =>
      obtain ⟨pk, pv⟩ := p
      rw [show mapEntriesEq ((pk, pv) :: rest) eb
        = ((match List.lookup pk eb with
            | none => false
            | some w => deepEquals pv w) && mapEntriesEq rest eb) from rfl,
        Bool.and_eq_true_iff]
      constructor
      · rintro ⟨h1, h2⟩
        intro q hq
        rcases List.mem_cons.mp hq with rfl | hq'
        · cases hl : List.lookup pk eb with
          | none => rw [hl] at h1; cases h1
          | some w => rw [hl] at h1; exact ⟨w, rfl, h1⟩
        · exact ih.mp h2 q hq'
      · intro hall
        refine ⟨?_, ih.mpr fun q hq => hall q (List.mem_cons_of_mem _ hq)⟩
        obtain ⟨w, hl, hd⟩ := hall (pk, pv) (List.mem_cons_self _ _)
        rw [hl]
        exact hd

/-- Characterization of the value walk of structural equality. -/
theorem mapValuesEq_iff (ea eb : List (String × PlainVal)) :
    mapValuesEq ea eb = true ↔
      ∀ p ∈ ea, ∃ w, List.lookup p.1 eb = some w ∧ structurallyEqual p.2 w = true := by
  induction ea with
  | nil => simp [mapValuesEq]
  | cons p rest ih =>
      obtain ⟨pk, pv⟩ := p
      rw [show mapValuesEq ((pk, pv) :: rest) eb
        = ((match List.lookup pk eb with
            | none => false
            | some w => structurallyEqual pv w) && mapValuesEq rest eb) from rfl,
        Bool.and_eq_true_iff]
      constructor
      · rintro ⟨h1, h2⟩
        intro q hq
        rcases List.mem_cons.mp hq with rfl | hq'
        · cases hl : List.lookup pk eb with
          | none => rw [hl] at h1; cases h1
          | some w => rw [hl] at h1; exact ⟨w, rfl, h1⟩
        · exact ih.mp h2 q hq'
      · intro hall
        refine ⟨?_, ih.mpr fun q hq => hall q (List.mem_cons_of_mem _ hq)⟩
        obtain ⟨w, hl, hd⟩ := hall (pk, pv) (List.mem_cons_self _ _)
        rw [hl]
        exact hd

/-- Characterization of the key-subset test. -/
theorem keysSubset_iff (ea eb : List (String × PlainVal)) :
    keysSubset ea eb = true ↔ ∀ p ∈ ea, (List.lookup p.1 eb).isSome = true := by
  simp [keysSubset, hasKey, List.all_eq_true]

/-- Mutually included Nodup lists have equal length. -/
theorem nodup_subset_length_eq {α : Type} (A B : List α)
    (hA : A.Nodup) (hB : B.Nodup) (hAB : A ⊆ B) (hBA : B ⊆ A) :
    A.length = B.length :=
  Nat.le_antisymm (List.subperm_of_subset hA hAB).length_le
    (List.subperm_of_subset hB hBA).length_le

/-- A Nodup list included in a Nodup list of the same length includes it
back. -/
theorem nodup_subset_of_length_eq {α : Type} (A B : List α)
    (hA : A.Nodup) (hAB : A ⊆ B) (hlen : B.length ≤ A.length) : B ⊆ A :=
  ((List.subperm_of_subset hA hAB).perm_of_length_le hlen).symm.subset

/-- Core equivalence for object comparison: on entry lists with distinct
keys, the deepEquals object walk (length check plus per-key lookup and
recursive comparison) coincides with structural map equality of the
normalized entries, assuming the equivalence already holds for the
entries' values. -/
theorem entries_deepEquals_norm (ea eb : List (String × PlainVal))
    (IH : ∀ (k : String) (v w : PlainVal), (k, v) ∈ ea → List.lookup k eb = some w →
      deepEquals v w = structurallyEqual (normJs v) (normJs w))
    (hna : keysNodup ea = true) (hnb : keysNodup eb = true) :
    ((ea.length == eb.length) && mapEntriesEq ea eb) =
      (keysSubset (normMap ea) (normMap eb) && keysSubset (normMap eb) (normMap ea)
        && mapValuesEq (normMap ea) (normMap eb)) := by
  have bext : ∀ x y : Bool, (x = true ↔ y = true) → x = y := by decide
  apply bext
  constructor
  · intro h
    rw [Bool.and_eq_true_iff] at h
    obtain ⟨hlen, hentries⟩ := h
    have hlen' : ea.length = eb.length := by simpa using hlen
    have hent := (mapEntriesEq_iff ea eb).mp hentries
    have hABkeys : (ea.map Prod.fst) ⊆ (eb.map Prod.fst) := by
      intro k hk
      obtain ⟨p, hp, hpk⟩ := List.mem_map.mp hk
      obtain ⟨w, hl, -⟩ := hent p hp
      rw [← hpk]
      exact (lookup_isSome_iff_mem_keys eb p.1).mp (by rw [hl]; rfl)
    have hBAkeys : (eb.map Prod.fst) ⊆ (ea.map Prod.fst) := by
      apply nodup_subset_of_length_eq _ _ (keysNodup_nodup ea hna) hABkeys
      simp [hlen']
    rw [Bool.and_eq_true_iff, Bool.and_eq_true_iff]
    refine ⟨⟨?_, ?_⟩, ?_⟩
    · rw [keysSubset_iff]
      intro p hp
      rw [normMap_eq_map] at hp
      obtain ⟨q, hq, rfl⟩ := List.mem_map.mp hp
      obtain ⟨w, hl, -⟩ := hent q hq
      rw [lookup_normMap, hl]
      rfl
    · rw [keysSubset_iff]
      intro p hp
      rw [normMap_eq_map] at hp
      obtain ⟨q, hq, rfl⟩ := List.mem_map.mp hp
      have hkA : q.1 ∈ ea.map Prod.fst := hBAkeys (List.mem_map.mpr ⟨q, hq, rfl⟩)
      have hsome := (lookup_isSome_iff_mem_keys ea q.1).mpr hkA
      rw [lookup_normMap]
      cases hlk : List.lookup q.1 ea with
      | none => rw [hlk] at hsome; cases hsome
      | some w => rfl
    · rw [mapValuesEq_iff]
      intro p hp
      rw [normMap_eq_map] at hp
      obtain ⟨q, hq, rfl⟩ := List.mem_map.mp hp
      obtain ⟨w, hl, hd⟩ := hent q hq
      refine ⟨normJs w, by rw [lookup_normMap, hl]; rfl, ?_⟩
      have hIH := IH q.1 q.2 w hq hl
      rw [hIH] at hd
      exact hd
  · intro h
    rw [Bool.and_eq_true_iff, Bool.and_eq_true_iff] at h
    obtain ⟨⟨hsAB, hsBA⟩, hvals⟩ := h
    have hsAB' := (keysSubset_iff _ _).mp hsAB
    have hsBA' := (keysSubset_iff _ _).mp hsBA
    have hvals' := (mapValuesEq_iff _ _).mp hvals
    have hABkeys : (ea.map Prod.fst) ⊆ (eb.map Prod.fst) := by
      intro k hk
      rw [← keys_normMap] at hk
      obtain ⟨p, hp, hpk⟩ := List.mem_map.mp hk
      have hsome := hsAB' p hp
      rw [lookup_normMap] at hsome
      rw [← hpk, ← keys_normMap, ← lookup_isSome_iff_mem_keys, lookup_normMap]
      exact hsome
    have hBAkeys : (eb.map Prod.fst) ⊆ (ea.map Prod.fst) := by
      intro k hk
      rw [← keys_normMap] at hk
      obtain ⟨p, hp, hpk⟩ := List.mem_map.mp hk
      have hsome := hsBA' p hp
      rw [lookup_normMap] at hsome
      rw [← hpk, ← keys_normMap, ← lookup_isSome_iff_mem_keys, lookup_normMap]
      exact hsome
    have hlen : ea.length = eb.length := by
      have hkeys := nodup_subset_length_eq _ _ (keysNodup_nodup ea hna)
        (keysNodup_nodup eb hnb) hABkeys hBAkeys
      simpa using hkeys
    rw [Bool.and_eq_true_iff]
    refine ⟨by simpa using hlen, ?_⟩
    rw [mapEntriesEq_iff]
    intro p hp
    have hpn : (p.1, normJs p.2) ∈ normMap ea := by
      rw [normMap_eq_map]
      exact List.mem_map.mpr ⟨p, hp, rfl⟩
    have hsome := hsAB' _ hpn
    rw [lookup_normMap] at hsome
    cases hlk : List.lookup p.1 eb with
    | none => rw [hlk] at hsome; cases hsome
    | some w =>
        refine ⟨w, rfl, ?_⟩
        obtain ⟨w', hl', hs⟩ := hvals' _ hpn
        rw [lookup_normMap, hlk] at hl'
        have hw' : w' = normJs w := by simpa using hl'.symm
        rw [IH p.1 p.2 w hp hlk, ← hw']
        exact hs

/-- Values stored in an entry list are smaller than the list. -/
theorem sizeOf_lt_of_mem_entries (l : List (String × PlainVal)) (k : String)
    (v : PlainVal) (h : (k, v) ∈ l) : sizeOf v < sizeOf l := by
  have h1 := List.sizeOf_lt_of_mem h
  have h2 : sizeOf (k, v) = 1 + sizeOf k + sizeOf v := by simp
  omega

/-- Size-bounded main equivalence: on well-formed values, deepEquals
coincides with structural equality after normalizing sequences to
index-keyed maps. -/
theorem deepEquals_norm_aux :
    ∀ n : Nat, ∀ a b : PlainVal, sizeOf a + sizeOf b ≤ n →
      wfVal a = true → wfVal b = true →
      deepEquals a b = structurallyEqual (normJs a) (normJs b) := by
  intro n
  induction n using Nat.strong_induction_on with
  | _ n ih =>
      intro a b hsize hwa hwb
      cases a with
      | boolV x => cases b <;> rfl
      | numV x => cases b <;> rfl
      | strV x => cases b <;> rfl
      | seq xs =>
          have hsa : sizeOf (PlainVal.seq xs) = 1 + sizeOf xs := by simp
          have hwxs : wfList xs = true := hwa
          cases b with
          | boolV y => rfl
          | numV y => rfl
          | strV y => rfl
          | seq ys =>
              have hsb : sizeOf (PlainVal.seq ys) = 1 + sizeOf ys := by simp
              have hwys : wfList ys = true := hwb
              have IH : ∀ (k : String) (v w : PlainVal), (k, v) ∈ seqEntries 0 xs →
                  List.lookup k (seqEntries 0 ys) = some w →
                  deepEquals v w = structurallyEqual (normJs v) (normJs w) := by
                intro k v w hmem hlook
                have hvx : v ∈ xs := (mem_seqEntries xs 0 (k, v) hmem).2
                have hwy : w ∈ ys := (mem_seqEntries ys 0 (k, w) (lookup_mem _ _ _ hlook)).2
                have hsv : sizeOf v < sizeOf xs := List.sizeOf_lt_of_mem hvx
                have hsw : sizeOf w < sizeOf ys := List.sizeOf_lt_of_mem hwy
                exact ih (sizeOf v + sizeOf w) (by omega) v w (Nat.le_refl _)
                  (wfList_mem xs v hwxs hvx) (wfList_mem ys w hwys hwy)
              have hkey := entries_deepEquals_norm (seqEntries 0 xs) (seqEntries 0 ys)
                IH (keysNodup_seqEntries xs 0) (keysNodup_seqEntries ys 0)
              show ((xs.length == ys.length) && seqEntriesEq 0 xs (seqEntries 0 ys)) =
                (keysSubset (normSeq 0 xs) (normSeq 0 ys)
                  && keysSubset (normSeq 0 ys) (normSeq 0 xs)
                  && mapValuesEq (normSeq 0 xs) (normSeq 0 ys))
              rw [seqEntriesEq_eq, normSeq_eq_normMap, normSeq_eq_normMap,
                show (xs.length == ys.length)
                    = ((seqEntries 0 xs).length == (seqEntries 0 ys).length) by
                  rw [length_seqEntries, length_seqEntries]]
              exact hkey
          | map kvs =>
              have hsb : sizeOf (PlainVal.map kvs) = 1 + sizeOf kvs := by simp
              have hwkvs : (keysNodup kvs && wfEntries kvs) = true := hwb
              rw [Bool.and_eq_true_iff] at hwkvs
              have IH : ∀ (k : String) (v w : PlainVal), (k, v) ∈ seqEntries 0 xs →
                  List.lookup k kvs = some w →
                  deepEquals v w = structurallyEqual (normJs v) (normJs w) := by
                intro k v w hmem hlook
                have hvx : v ∈ xs := (mem_seqEntries xs 0 (k, v) hmem).2
                have hwk : (k, w) ∈ kvs := lookup_mem _ _ _ hlook
                have hsv : sizeOf v < sizeOf xs := List.sizeOf_lt_of_mem hvx
                have hsw : sizeOf w < sizeOf kvs := sizeOf_lt_of_mem_entries _ _ _ hwk
                exact ih (sizeOf v + sizeOf w) (by omega) v w (Nat.le_refl _)
                  (wfList_mem xs v hwxs hvx) (wfEntries_mem kvs k w hwkvs.2 hwk)
              have hkey := entries_deepEquals_norm (seqEntries 0 xs) kvs
                IH (keysNodup_seqEntries xs 0) hwkvs.1
              show ((xs.length == kvs.length) && seqEntriesEq 0 xs kvs) =
                (keysSubset (normSeq 0 xs) (normMap kvs)
                  && keysSubset (normMap kvs) (normSeq 0 xs)
                  && mapValuesEq (normSeq 0 xs) (normMap kvs))
              rw [seqEntriesEq_eq, normSeq_eq_normMap,
                show (xs.length == kvs.length)
                    = ((seqEntries 0 xs).length == kvs.length) by
                  rw [length_seqEntries]]
              exact hkey
      | map kvs =>
          have hsa : sizeOf (PlainVal.map kvs) = 1 + sizeOf kvs := by simp
          have hwkvs : (keysNodup kvs && wfEntries kvs) = true := hwa
          rw [Bool.and_eq_true_iff] at hwkvs
          cases b with
          | boolV y => rfl
          | numV y => rfl
          | strV y => rfl
          | seq ys =>
              have hsb : sizeOf (PlainVal.seq ys) = 1 + sizeOf ys := by simp
              have hwys : wfList ys = true := hwb
              have IH : ∀ (k : String) (v w : PlainVal), (k, v) ∈ kvs →
                  List.lookup k (seqEntries 0 ys) = some w →
                  deepEquals v w = structurallyEqual (normJs v) (normJs w) := by
                intro k v w hmem hlook
                have hwy : w ∈ ys := (mem_seqEntries ys 0 (k, w) (lookup_mem _ _ _ hlook)).2
                have hsv : sizeOf v < sizeOf kvs := sizeOf_lt_of_mem_entries _ _ _ hmem
                have hsw : sizeOf w < sizeOf ys := List.sizeOf_lt_of_mem hwy
                exact ih (sizeOf v + sizeOf w) (by omega) v w (Nat.le_refl _)
                  (wfEntries_mem kvs k v hwkvs.2 hmem) (wfList_mem ys w hwys hwy)
              have hkey := entries_deepEquals_norm kvs (seqEntries 0 ys)
                IH hwkvs.1 (keysNodup_seqEntries ys 0)
              show ((kvs.length == ys.length) && mapEntriesEq kvs (seqEntries 0 ys)) =
                (keysSubset (normMap kvs) (normSeq 0 ys)
                  && keysSubset (normSeq 0 ys) (normMap kvs)
                  && mapValuesEq (normMap kvs) (normSeq 0 ys))
              rw [normSeq_eq_normMap,
                show (kvs.length == ys.length)
                    = (kvs.length == (seqEntries 0 ys).length) by
                  rw [length_seqEntries]]
              exact hkey
          | map kvs' =>
              have hsb : sizeOf (PlainVal.map kvs') = 1 + sizeOf kvs' := by simp
              have hwkvs' : (keysNodup kvs' && wfEntries kvs') = true := hwb
              rw [Bool.and_eq_true_iff] at hwkvs'
              have IH : ∀ (k : String) (v w : PlainVal), (k, v) ∈ kvs →
                  List.lookup k kvs' = some w →
                  deepEquals v w = structurallyEqual (normJs v) (normJs w) := by
                intro k v w hmem hlook
                have hwk : (k, w) ∈ kvs' := lookup_mem _ _ _ hlook
                have hsv : sizeOf v < sizeOf kvs := sizeOf_lt_of_mem_entries _ _ _ hmem
                have hsw : sizeOf w < sizeOf kvs' := sizeOf_lt_of_mem_entries _ _ _ hwk
                exact ih (sizeOf v + sizeOf w) (by omega) v w (Nat.le_refl _)
                  (wfEntries_mem kvs k v hwkvs.2 hmem) (wfEntries_mem kvs' k w hwkvs'.2 hwk)
              have hkey := entries_deepEquals_norm kvs kvs' IH hwkvs.1 hwkvs'.1
              exact hkey

/-- C9 counterexample: the empty sequence and the empty map are plain,
well-formed configuration values that are not structurally equal (they
have different shapes), yet deepEquals returns true on them, because both
have `typeof` object and the same (empty) key set. -/
theorem deepEquals_not_structural :
    wfVal (.seq []) = true ∧ wfVal (.map []) = true ∧
      deepEquals (.seq []) (.map []) = true ∧
      structurallyEqual (.seq []) (.map []) = false := by decide

/-- C9 amended: for plain configuration values whose maps carry distinct
keys (as JS objects guarantee), deepEquals returns true exactly when the
two values are structurally equal after identifying each sequence with
the map from its decimal index strings to its elements. -/
theorem deepEquals_iff_structural_norm (a b : PlainVal)
    (ha : wfVal a = true) (hb : wfVal b = true) :
    deepEquals a b = true ↔ structurallyEqual (normJs a) (normJs b) = true := by
  rw [deepEquals_norm_aux (sizeOf a + sizeOf b) a b (Nat.le_refl _) ha hb]

/-- Witness for C9 amended: a one-element sequence against the map with
index key "0". -/
theorem deepEquals_iff_structural_norm_witness :
    deepEquals (.seq [.numV 1]) (.map [("0", .numV 1)]) = true ↔
      structurallyEqual (normJs (.seq [.numV 1]))
        (normJs (.map [("0", .numV 1)])) = true :=
  deepEquals_iff_structural_norm (.seq [.numV 1]) (.map [("0", .numV 1)])
    (by decide) (by decide)

end EvalsPwa
